import Mathlib

/-!
Verification of `lambda_vsa_data.py`, a batch job that reads two Google-sheet
datasets and upserts them into two PostgreSQL tables.

The Python source is shallowly embedded below:

* spreadsheet rows are `List String` (one cell per entry);
* the header-drop / deduplication logic of `import_emp_data_to_postgres` and
  `import_app_data_to_postgres` is translated line by line;
* the PostgreSQL `INSERT ... ON CONFLICT (key) DO UPDATE SET <all non-key
  columns> = EXCLUDED.<col>` statement issued through
  `psycopg2.extras.execute_values` is modelled as a fold over the batch on a
  table represented as a list of rows, returning `none` where PostgreSQL would
  raise (wrong column count, or the same key affected twice in one statement);
* `get_secrets`, `lambda_handler` and the temp-file handling of
  `read_google_sheet_data` are modelled with explicit environments standing
  for the external services (Secrets Manager, the sheets API, the network).
-/

/-- A spreadsheet row / database tuple: an ordered sequence of string cells,
as produced by `wks.get_all_values` and by `tuple(row)` in the Python source. -/
abbrev Row : Type := List String

/-- The unique-key tuple of a row: the cells at the unique-key column
positions, in order.  Mirrors
`tuple(row[columns.index(col)] for col in unique_columns)` in
`import_app_data_to_postgres`; `none` models the `IndexError` Python raises
when the row is shorter than a key index. -/
def rowKey (keyIdx : List Nat) (row : Row) : Option (List String) :=
  keyIdx.mapM (fun i => row.get? i)

/-- Column schema of the employee table, from `import_emp_data_to_postgres`. -/
def empColumns : List String :=
  ["name", "email", "vsa_uspr_access", "vsa_pe_access", "vsa_noc_access",
   "vsa_dci_access", "vsa_sc_access"]

/-- Column schema of the application table, from `import_app_data_to_postgres`. -/
def appColumns : List String :=
  ["name", "owner", "vsa_type", "vsa_uspr", "vsa_pe", "vsa_noc", "vsa_dci",
   "vsa_sc"]

/-- The employee unique key `unique_columns_emp = ['email']` resolved to
column positions, as
`columns.index(col)` does in the source. -/
def empKeyIdx : List Nat := ["email"].map (fun c => empColumns.indexOf c)

/-- The application unique key `unique_columns_apps = ['name']` resolved to
column positions. -/
def appKeyIdx : List Nat := ["name"].map (fun c => appColumns.indexOf c)

/-- The dedup loop of `import_app_data_to_postgres` (lines 159-165):
walk the rows in order, keep a row when its unique-key tuple has not been
seen, otherwise drop it; `seen` accumulates the key tuples kept so far.
Returns `none` when key extraction raises on some row. -/
def dedupGo (keyIdx : List Nat) (seen : List (List String)) :
    List Row → Option (List Row)
  | [] => some []
  | row :: rest =>
    match rowKey keyIdx row with
    | none => none
    | some k =>
      if k ∈ seen then dedupGo keyIdx seen rest
      else
        match dedupGo keyIdx (k :: seen) rest with
        | none => none
        | some out => some (row :: out)

/-- Records prepared by `import_emp_data_to_postgres`: `values = [tuple(row)
for row in data[1:]]` — the header row is dropped, nothing else happens
(this path has no dedup loop). -/
def normalizeEmp (data : List Row) : List Row := data.drop 1

/-- Records prepared by `import_app_data_to_postgres`: drop the header row,
then run the dedup loop with an initially empty `seen` set. -/
def normalizeApp (data : List Row) : Option (List Row) :=
  dedupGo appKeyIdx [] (data.drop 1)

/-- One row of the `INSERT ... ON CONFLICT (key) DO UPDATE` statement:
if some destination row has the incoming row's key, every such row is
replaced by the incoming row (the update sets every non-key column to the
`EXCLUDED` value and the key columns already agree, so the stored row becomes
the incoming tuple); otherwise the incoming row is inserted. -/
def upsertOne (keyIdx : List Nat) (table : List Row) (r : Row) : List Row :=
  if ∃ t ∈ table, rowKey keyIdx t = rowKey keyIdx r then
    table.map (fun t => if rowKey keyIdx t = rowKey keyIdx r then r else t)
  else table ++ [r]

/-- The key tuples of a batch, in order; `none` when some row lacks a key
cell. -/
def keysOf (keyIdx : List Nat) : List Row → Option (List (List String))
  | [] => some []
  | r :: rs =>
    match rowKey keyIdx r, keysOf keyIdx rs with
    | some k, some ks => some (k :: ks)
    | _, _ => none

/-- The batched upsert statement issued by `extras.execute_values(cursor,
upsert_query, values)` followed by `conn.commit()`.  PostgreSQL applies the
rows of one statement in order; the statement raises — modelled as `none` —
when a tuple does not match the column count of the `INSERT` list, or when
two tuples of the batch carry the same conflict-target key (`ON CONFLICT DO
UPDATE command cannot affect row a second time`).  On `none` nothing is
committed. -/
def upsert (ncols : Nat) (keyIdx : List Nat) (table : List Row)
    (batch : List Row) : Option (List Row) :=
  if batch.all (fun r => r.length = ncols) then
    (keysOf keyIdx batch).bind (fun ks =>
      if ks.Nodup then some (batch.foldl (upsertOne keyIdx) table) else none)
  else none

/-- Destination-table state after one call of the import routine: the upsert
result when the statement succeeds and commits, the prior state when it
raises (the transaction is never committed, so PostgreSQL rolls it back). -/
def applyUpsert (ncols : Nat) (keyIdx : List Nat) (table : List Row)
    (batch : List Row) : List Row :=
  (upsert ncols keyIdx table batch).getD table

/-- Keyword configuration handed to `psycopg2.connect` by an import routine. -/
structure ConnectOptions where
  connect_timeout : Option Nat
  statement_timeout_ms : Option Nat
  deriving DecidableEq

/-- Line 109 of `import_emp_data_to_postgres`: `psycopg2.connect(**db_config)`
— no timeout keyword is passed. -/
def empConnectOptions : ConnectOptions := ⟨none, none⟩

/-- Line 147 of `import_app_data_to_postgres`: `psycopg2.connect(**db_config,
connect_timeout=10, options='-c statement_timeout=30000')`. -/
def appConnectOptions : ConnectOptions := ⟨some 10, some 30000⟩

/-- Skip JSON insignificant whitespace. -/
def skipWs : List Char → List Char
  | [] => []
  | c :: cs =>
    if c = ' ' ∨ c = '\n' ∨ c = '\t' ∨ c = '\r' then skipWs cs else c :: cs

/-- Body of a JSON string literal up to the closing quote.  Escape sequences
are outside the fragment this model covers and yield `none`. -/
def stringBody : List Char → Option (List Char × List Char)
  | [] => none
  | '"' :: cs => some ([], cs)
  | '\\' :: _ => none
  | c :: cs =>
    match stringBody cs with
    | some (body, rest) => some (c :: body, rest)
    | none => none

/-- A JSON string token, including its opening quote. -/
def stringTok : List Char → Option (String × List Char)
  | '"' :: cs =>
    match stringBody cs with
    | some (body, rest) => some (String.mk body, rest)
    | none => none
  | _ => none

/-- Members of a JSON object (string key, colon, string value), consuming
the closing brace;
`fuel` bounds the number of members. -/
def parseMembers : Nat → List Char → Option (List (String × String) × List Char)
  | 0, _ => none
  | Nat.succ fuel, cs =>
    match stringTok (skipWs cs) with
    | none => none
    | some (k, cs1) =>
      match skipWs cs1 with
      | ':' :: cs2 =>
        match stringTok (skipWs cs2) with
        | none => none
        | some (v, cs3) =>
          match skipWs cs3 with
          | ',' :: cs4 =>
            match parseMembers fuel cs4 with
            | some (rest, cs5) => some ((k, v) :: rest, cs5)
            | none => none
          | '\x7d' :: cs4 => some ([(k, v)], cs4)
          | _ => none
      | _ => none

/-- Model of Python's `json.loads` restricted to the JSON fragment the
secrets of this system use: a flat object with string keys and string
values.  `none` models `json.JSONDecodeError`. -/
def jsonLoadsObj (s : String) : Option (List (String × String)) :=
  match skipWs s.toList with
  | '\x7b' :: cs =>
    match skipWs cs with
    | '\x7d' :: cs2 => if (skipWs cs2).isEmpty then some [] else none
    | _ =>
      match parseMembers (cs.length + 1) cs with
      | some (kvs, rest) => if (skipWs rest).isEmpty then some kvs else none
      | none => none
  | _ => none

/-- Model of `secret.startswith('\x7b')`: does the first character of the
string open a JSON object? -/
def startsWithBrace (s : String) : Bool :=
  match s.toList with
  | [] => false
  | c :: _ => c = '\x7b'

/-- A resolved secret: either a key-value mapping (the raw value parsed as a
JSON object) or the raw string itself. -/
inductive SecretValue : Type
  | mapping : List (String × String) → SecretValue
  | raw : String → SecretValue
  deriving DecidableEq

/-- The value computation of `get_secrets` (line 27): given the
`SecretString` fetched from Secrets Manager, `json.loads(secret) if
secret.startswith('\x7b') else secret`.  `Except.error` models the
`json.loads` exception propagating out of `get_secrets`. -/
def getSecretsValue (secret : String) : Except String SecretValue :=
  if startsWithBrace secret then
    match jsonLoadsObj secret with
    | some kvs => Except.ok (SecretValue.mapping kvs)
    | none => Except.error "JSONDecodeError"
  else Except.ok (SecretValue.raw secret)



/-- Outcome of one import routine: either the transaction committed, leaving
the table in the given state, or an exception was raised with nothing
committed — the field records the destination state, which on the error side
is the prior state (PostgreSQL rolls back an uncommitted transaction). -/
inductive WriteResult : Type
  | committed : List Row → WriteResult
  | writeError : List Row → WriteResult
  deriving DecidableEq

/-- The routine `import_emp_data_to_postgres` as a state transformer on the destination
table.  `connOk = false` models `psycopg2.connect` raising (e.g. connection
refused).  The batch is the raw rows minus the header — this path has no
dedup loop. -/
def runEmpImport (connOk : Bool) (table : List Row) (data : List Row) :
    WriteResult :=
  if connOk then
    match upsert empColumns.length empKeyIdx table (normalizeEmp data) with
    | some t => WriteResult.committed t
    | none => WriteResult.writeError table
  else WriteResult.writeError table

/-- The routine `import_app_data_to_postgres` as a state transformer on the destination
table: connect (or fail), drop the header, dedup, then run the batched
upsert. -/
def runAppImport (connOk : Bool) (table : List Row) (data : List Row) :
    WriteResult :=
  if connOk then
    match normalizeApp data with
    | none => WriteResult.writeError table
    | some batch =>
      match upsert appColumns.length appKeyIdx table batch with
      | some t => WriteResult.committed t
      | none => WriteResult.writeError table
  else WriteResult.writeError table

/-- The `google_secrets` re-parse in `lambda_handler` (lines 204-205): if the
resolved secret is still a plain string, `json.loads` it. -/
def ensureMapping (v : SecretValue) : Except String SecretValue :=
  match v with
  | SecretValue.raw s =>
    match jsonLoadsObj s with
    | some kvs => Except.ok (SecretValue.mapping kvs)
    | none => Except.error "JSONDecodeError"
  | m => Except.ok m

/-- Subscripting a resolved secret, `db_secrets['host']` etc.: a `KeyError`
when the key is absent, a `TypeError` when the secret resolved to a plain
string. -/
def secretLookup (v : SecretValue) (k : String) : Except String String :=
  match v with
  | SecretValue.mapping kvs =>
    match kvs.lookup k with
    | some x => Except.ok x
    | none => Except.error ("KeyError: " ++ k)
  | SecretValue.raw _ => Except.error "TypeError: string indices must be integers"

/-- Environment of one `lambda_handler` invocation: the outcomes of every
external interaction — the three Secrets Manager fetches, the two sheet
reads, whether each database connect succeeds, and the prior state of the
two destination tables. -/
structure LambdaEnv where
  dbSecretFetch : Except String String
  googleSecretFetch : Except String String
  tokenSecretFetch : Except String String
  empRead : Except String (List Row)
  appRead : Except String (List Row)
  empConnOk : Bool
  appConnOk : Bool
  empTable : List Row
  appTable : List Row

/-- The body of the `try` block of `lambda_handler`: resolve the three
secrets, build `db_config` from the database secret, read both sheets, run
both imports in order.  Any raised exception short-circuits as
`Except.error`. -/
def handlerCore (env : LambdaEnv) : Except String String := do
  let dbRaw ← env.dbSecretFetch
  let dbSecrets ← getSecretsValue dbRaw
  let googleRaw ← env.googleSecretFetch
  let googleSecrets0 ← getSecretsValue googleRaw
  let tokenRaw ← env.tokenSecretFetch
  let _gapiToken ← getSecretsValue tokenRaw
  let _googleSecrets ← ensureMapping googleSecrets0
  let _host ← secretLookup dbSecrets "host"
  let _port ← secretLookup dbSecrets "port"
  let _user ← secretLookup dbSecrets "rw-user"
  let _password ← secretLookup dbSecrets "password"
  let dataEmp ← env.empRead
  let dataApps ← env.appRead
  match runEmpImport env.empConnOk env.empTable dataEmp with
  | WriteResult.writeError _ => Except.error "emp import failed"
  | WriteResult.committed _ =>
    match runAppImport env.appConnOk env.appTable dataApps with
    | WriteResult.writeError _ => Except.error "app import failed"
    | WriteResult.committed _ => Except.ok "Success"

/-- The JSON body of the handler response: `{'message': ...}` on the 200
path, `{'error': ...}` on the 500 path. -/
inductive LambdaBody : Type
  | message : String → LambdaBody
  | error : String → LambdaBody
  deriving DecidableEq

/-- The structured handler response `{'statusCode': ..., 'body': ...}`. -/
structure LambdaResult where
  statusCode : Nat
  body : LambdaBody
  deriving DecidableEq

/-- The function `lambda_handler`: the whole `try` body, with `except Exception` turning
any raised exception into the 500 response. -/
def lambda_handler (env : LambdaEnv) : LambdaResult :=
  match handlerCore env with
  | Except.ok m => ⟨200, LambdaBody.message m⟩
  | Except.error e => ⟨500, LambdaBody.error e⟩

/-- The fixed token path written by `read_google_sheet_data` (line 50). -/
def sheetsTokenPath : String := "/tmp/sheets.googleapis.com-python.json"

/-- Where `read_google_sheet_data` can leave its `try` block:
the client-secret dump raising inside the first `with` block (line 47,
before `temp_file_path` is assigned on line 48), the token-file write
raising (lines 51-52), the sheet-service interaction (authorize / open /
worksheet / read, lines 58-80) raising, or data coming back. -/
inductive SheetOutcome : Type
  | dumpCredsFail : SheetOutcome
  | tokenWriteFail : SheetOutcome
  | serviceFail : String → SheetOutcome
  | success : List Row → SheetOutcome
  deriving DecidableEq

/-- The `finally` block of `read_google_sheet_data` in the runs where both
path variables were assigned: `os.remove` of each credential file, guarded
by `os.path.exists` (removing an absent path is a no-op). -/
def cleanupBoth (tempPath : String) (fs : List String) : List String :=
  (fs.filter (fun p => p != tempPath)).filter (fun p => p != sheetsTokenPath)

/-- The function `read_google_sheet_data` as a transformer on the set of
on-disk paths (`fs0`).  `NamedTemporaryFile(delete=False)` creates the file
at `tempPath` on open; `json.dump(credentials, temp_file)` runs next, and
only after it returns is `temp_file_path` assigned (line 48).  So on the
exit path where that dump raises, the `finally` block — whose removals are
guarded by `if temp_file_path and os.path.exists(...)` — sees both path
variables still `None` and removes nothing, leaving the just-created temp
file on disk.  On every later exit (token-file write failure, service
failure, success) both variables are assigned and both files are removed.
Returns the Python result (data or re-raised exception) together with the
final set of paths. -/
def read_google_sheet_data_fs (tempPath : String) (outcome : SheetOutcome)
    (fs0 : List String) : Except String (List Row) × List String :=
  let fs1 := fs0 ++ [tempPath]
  match outcome with
  | SheetOutcome.dumpCredsFail =>
    (Except.error "credential dump failed", fs1)
  | SheetOutcome.tokenWriteFail =>
    (Except.error "token write failed",
      cleanupBoth tempPath (fs1 ++ [sheetsTokenPath]))
  | SheetOutcome.serviceFail msg =>
    (Except.error msg, cleanupBoth tempPath (fs1 ++ [sheetsTokenPath]))
  | SheetOutcome.success d =>
    (Except.ok d, cleanupBoth tempPath (fs1 ++ [sheetsTokenPath]))

/-- Soundness of the dedup loop: every kept row has a key that was not yet
seen, and the kept rows have pairwise distinct keys. -/
theorem dedupGo_sound (keyIdx : List Nat) :
    ∀ (rows : List Row) (seen : List (List String)) (out : List Row),
      dedupGo keyIdx seen rows = some out →
      (∀ r ∈ out, ∃ k, rowKey keyIdx r = some k ∧ k ∉ seen) ∧
        out.Pairwise (fun a b => rowKey keyIdx a ≠ rowKey keyIdx b) := by
  intro rows
  induction rows with
  | nil =>
    intro seen out h
    simp only [dedupGo, Option.some.injEq] at h
    subst h
    simp
  | cons row rest ih =>
    intro seen out h
    simp only [dedupGo] at h
    split at h
    · simp at h
    · rename_i k hk
      split at h
      · rename_i hks
        exact ih seen out h
      · rename_i hks
        split at h
        · simp at h
        · rename_i out' hrec
          simp only [Option.some.injEq] at h
          subst h
          obtain ⟨hmem, hpw⟩ := ih (k :: seen) out' hrec
          refine ⟨?_, ?_⟩
          · intro r hr
            rcases List.mem_cons.mp hr with hr | hr
            · exact ⟨k, hr ▸ hk, hks⟩
            · obtain ⟨k', hk', hk'seen⟩ := hmem r hr
              exact ⟨k', hk', fun hc => hk'seen (List.mem_cons_of_mem _ hc)⟩
          · refine List.pairwise_cons.mpr ⟨?_, hpw⟩
            intro b hb
            obtain ⟨k', hk', hk'seen⟩ := hmem b hb
            rw [hk, hk']
            intro hc
            exact hk'seen (List.mem_cons.mpr (Or.inl (by injection hc with h; exact h.symm)))

/-- Every row kept by the dedup loop comes from the input rows. -/
theorem dedupGo_subset (keyIdx : List Nat) :
    ∀ (rows : List Row) (seen : List (List String)) (out : List Row),
      dedupGo keyIdx seen rows = some out → ∀ r ∈ out, r ∈ rows := by
  intro rows
  induction rows with
  | nil =>
    intro seen out h
    simp only [dedupGo, Option.some.injEq] at h
    subst h
    simp
  | cons row rest ih =>
    intro seen out h
    simp only [dedupGo] at h
    split at h
    · simp at h
    · rename_i k hk
      split at h
      · exact fun r hr => List.mem_cons_of_mem _ (ih seen out h r hr)
      · split at h
        · simp at h
        · rename_i out' hrec
          simp only [Option.some.injEq] at h
          subst h
          intro r hr
          rcases List.mem_cons.mp hr with hr | hr
          · exact hr ▸ List.mem_cons_self _ _
          · exact List.mem_cons_of_mem _ (ih (k :: seen) out' hrec r hr)

/-- A row whose key is fresh (not seen, and not the key of any earlier row)
is kept by the dedup loop. -/
theorem dedupGo_keeps_first (keyIdx : List Nat) (A : Row) :
    ∀ (p : List Row) (q : List Row) (seen : List (List String)) (out : List Row),
      dedupGo keyIdx seen (p ++ A :: q) = some out →
      (∀ x ∈ p, rowKey keyIdx x ≠ rowKey keyIdx A) →
      (∀ k, rowKey keyIdx A = some k → k ∉ seen) →
      A ∈ out := by
  intro p
  induction p with
  | nil =>
    intro q seen out h _ hfresh
    simp only [List.nil_append, dedupGo] at h
    split at h
    · simp at h
    · rename_i k hk
      rw [if_neg (hfresh k hk)] at h
      split at h
      · simp at h
      · rename_i out' hrec
        simp only [Option.some.injEq] at h
        subst h
        exact List.mem_cons_self _ _
  | cons x p' ih =>
    intro q seen out h hp hfresh
    simp only [List.cons_append, dedupGo] at h
    have hxA : rowKey keyIdx x ≠ rowKey keyIdx A :=
      hp x (List.mem_cons_self _ _)
    have hp' : ∀ y ∈ p', rowKey keyIdx y ≠ rowKey keyIdx A :=
      fun y hy => hp y (List.mem_cons_of_mem _ hy)
    split at h
    · simp at h
    · rename_i kx hkx
      split at h
      · exact ih q seen out h hp' hfresh
      · rename_i hks
        split at h
        · simp at h
        · rename_i out' hrec
          simp only [Option.some.injEq] at h
          subst h
          refine List.mem_cons_of_mem _ (ih q (kx :: seen) out' hrec hp' ?_)
          intro k hkA
          intro hc
          rcases List.mem_cons.mp hc with hc | hc
          · exact hxA (by rw [hkx, hkA, hc])
          · exact hfresh k hkA hc

/-- A record is settled in a table when some stored row carries its key and
every stored row carrying its key is the record itself. -/
def Settled (keyIdx : List Nat) (r : Row) (table : List Row) : Prop :=
  (∃ t ∈ table, rowKey keyIdx t = rowKey keyIdx r) ∧
    ∀ t ∈ table, rowKey keyIdx t = rowKey keyIdx r → t = r

/-- After upserting a record, the record is settled. -/
theorem settled_upsertOne_self (keyIdx : List Nat) (table : List Row) (r : Row) :
    Settled keyIdx r (upsertOne keyIdx table r) := by
  unfold upsertOne Settled
  by_cases hc : ∃ t ∈ table, rowKey keyIdx t = rowKey keyIdx r
  · rw [if_pos hc]
    obtain ⟨t0, ht0, hk0⟩ := hc
    refine ⟨⟨r, List.mem_map.mpr ⟨t0, ht0, by rw [if_pos hk0]⟩, rfl⟩, ?_⟩
    intro t ht hkt
    obtain ⟨t', ht', himg⟩ := List.mem_map.mp ht
    by_cases h' : rowKey keyIdx t' = rowKey keyIdx r
    · rw [if_pos h'] at himg
      exact himg.symm
    · rw [if_neg h'] at himg
      subst himg
      exact absurd hkt h'
  · rw [if_neg hc]
    refine ⟨⟨r, List.mem_append_right _ (by simp), rfl⟩, ?_⟩
    intro t ht hkt
    rcases List.mem_append.mp ht with h | h
    · exact absurd ⟨t, h, hkt⟩ hc
    · simpa using h

/-- Upserting a record with a different key leaves another record settled. -/
theorem settled_upsertOne_preserve (keyIdx : List Nat) {table : List Row}
    {r r' : Row} (hne : rowKey keyIdx r' ≠ rowKey keyIdx r)
    (hs : Settled keyIdx r table) :
    Settled keyIdx r (upsertOne keyIdx table r') := by
  obtain ⟨⟨t0, ht0, hk0⟩, hall⟩ := hs
  unfold upsertOne
  by_cases hc : ∃ t ∈ table, rowKey keyIdx t = rowKey keyIdx r'
  · rw [if_pos hc]
    constructor
    · refine ⟨t0, List.mem_map.mpr ⟨t0, ht0, ?_⟩, hk0⟩
      rw [if_neg]
      intro hx
      exact hne (by rw [← hx, hk0])
    · intro t ht hkt
      obtain ⟨t', ht', himg⟩ := List.mem_map.mp ht
      by_cases h' : rowKey keyIdx t' = rowKey keyIdx r'
      · rw [if_pos h'] at himg
        subst himg
        exact absurd hkt hne
      · rw [if_neg h'] at himg
        subst himg
        exact hall t' ht' hkt
  · rw [if_neg hc]
    constructor
    · exact ⟨t0, List.mem_append_left _ ht0, hk0⟩
    · intro t ht hkt
      rcases List.mem_append.mp ht with h | h
      · exact hall t h hkt
      · have ht' : t = r' := by simpa using h
        subst ht'
        exact absurd hkt hne

/-- Upserting a record that is already settled does not change the table. -/
theorem upsertOne_of_settled (keyIdx : List Nat) {table : List Row} {r : Row}
    (hs : Settled keyIdx r table) : upsertOne keyIdx table r = table := by
  obtain ⟨hex, hall⟩ := hs
  unfold upsertOne
  rw [if_pos hex]
  conv_rhs => rw [← List.map_id table]
  refine List.map_congr_left ?_
  intro t ht
  by_cases h' : rowKey keyIdx t = rowKey keyIdx r
  · rw [if_pos h']
    exact (hall t ht h').symm
  · rw [if_neg h']
    rfl

/-- Settledness survives a fold over records with different keys. -/
theorem settled_foldl (keyIdx : List Nat) {r : Row} :
    ∀ (bs : List Row) (t : List Row), Settled keyIdx r t →
      (∀ r' ∈ bs, rowKey keyIdx r' ≠ rowKey keyIdx r) →
      Settled keyIdx r (bs.foldl (upsertOne keyIdx) t) := by
  intro bs
  induction bs with
  | nil => intro t h _; simpa using h
  | cons b bs ih =>
    intro t h hbs
    rw [List.foldl_cons]
    exact ih (upsertOne keyIdx t b)
      (settled_upsertOne_preserve keyIdx (hbs b (List.mem_cons_self _ _)) h)
      (fun r' hr' => hbs r' (List.mem_cons_of_mem _ hr'))

/-- After folding a batch with pairwise distinct keys over any table, every
record of the batch is settled in the result. -/
theorem settle_all (keyIdx : List Nat) :
    ∀ (batch : List Row) (t : List Row),
      batch.Pairwise (fun a b => rowKey keyIdx a ≠ rowKey keyIdx b) →
      ∀ r ∈ batch, Settled keyIdx r (batch.foldl (upsertOne keyIdx) t) := by
  intro batch
  induction batch with
  | nil => simp
  | cons b bs ih =>
    intro t hpw r hr
    obtain ⟨hb, hbs⟩ := List.pairwise_cons.mp hpw
    rw [List.foldl_cons]
    rcases List.mem_cons.mp hr with hr | hr
    · subst hr
      exact settled_foldl keyIdx bs (upsertOne keyIdx t r)
        (settled_upsertOne_self keyIdx t r)
        (fun r' hr' => (hb r' hr').symm)
    · exact ih (upsertOne keyIdx t b) hbs r hr

/-- Folding a batch whose records are all settled is the identity. -/
theorem foldl_of_all_settled (keyIdx : List Nat) :
    ∀ (batch : List Row) (t : List Row),
      (∀ r ∈ batch, Settled keyIdx r t) →
      batch.foldl (upsertOne keyIdx) t = t := by
  intro batch
  induction batch with
  | nil => simp
  | cons b bs ih =>
    intro t h
    rw [List.foldl_cons, upsertOne_of_settled keyIdx (h b (List.mem_cons_self _ _))]
    exact ih t (fun r hr => h r (List.mem_cons_of_mem _ hr))

/-- Every row of a batch with extracted keys has its key in the key list. -/
theorem keysOf_mem (keyIdx : List Nat) :
    ∀ (rs : List Row) (ks : List (List String)),
      keysOf keyIdx rs = some ks →
      ∀ b ∈ rs, ∃ kb, rowKey keyIdx b = some kb ∧ kb ∈ ks := by
  intro rs
  induction rs with
  | nil => simp
  | cons r rs ih =>
    intro ks h b hb
    simp only [keysOf] at h
    split at h
    · rename_i k ks' hk hks
      simp only [Option.some.injEq] at h
      subst h
      rcases List.mem_cons.mp hb with hb | hb
      · exact ⟨k, hb ▸ hk, List.mem_cons_self _ _⟩
      · obtain ⟨kb, h1, h2⟩ := ih ks' hks b hb
        exact ⟨kb, h1, List.mem_cons_of_mem _ h2⟩
    · simp at h

/-- Distinct extracted keys give pairwise distinct row keys. -/
theorem keysOf_pairwise (keyIdx : List Nat) :
    ∀ (batch : List Row) (ks : List (List String)),
      keysOf keyIdx batch = some ks → ks.Nodup →
      batch.Pairwise (fun a b => rowKey keyIdx a ≠ rowKey keyIdx b) := by
  intro batch
  induction batch with
  | nil => simp
  | cons r rs ih =>
    intro ks h hnd
    simp only [keysOf] at h
    split at h
    · rename_i k ks' hk hks
      simp only [Option.some.injEq] at h
      subst h
      obtain ⟨hknotin, hnd'⟩ := List.nodup_cons.mp hnd
      refine List.pairwise_cons.mpr ⟨?_, ih ks' hks hnd'⟩
      intro b hb
      obtain ⟨kb, h1, h2⟩ := keysOf_mem keyIdx rs ks' hks b hb
      rw [hk, h1]
      intro hc
      injection hc with hc
      exact hknotin (hc ▸ h2)
    · simp at h

/-- A successful batched upsert is idempotent: replaying the same batch on
the committed state succeeds and changes nothing. -/
theorem upsert_idem_some (ncols : Nat) (keyIdx : List Nat)
    {table batch t' : List Row} (h : upsert ncols keyIdx table batch = some t') :
    upsert ncols keyIdx t' batch = some t' := by
  unfold upsert at h ⊢
  split at h
  · rename_i hall
    rw [if_pos hall]
    cases hks : keysOf keyIdx batch with
    | none => rw [hks] at h; simp at h
    | some ks =>
      rw [hks] at h
      simp only [Option.some_bind] at h ⊢
      by_cases hnd : ks.Nodup
      · rw [if_pos hnd] at h ⊢
        simp only [Option.some.injEq] at h
        subst h
        have hpw := keysOf_pairwise keyIdx batch ks hks hnd
        exact congrArg some
          (foldl_of_all_settled keyIdx batch _
            (settle_all keyIdx batch table hpw))
      · rw [if_neg hnd] at h
        simp at h
  · simp at h

/-- Inverting one monadic bind on `Except`. -/
theorem except_bind_ok {ε α β : Type} (x : Except ε α) (f : α → Except ε β)
    (b : β) (h : (x >>= f) = Except.ok b) :
    ∃ a, x = Except.ok a ∧ f a = Except.ok b := by
  cases x with
  | error e => exact absurd h (by simp [Bind.bind, Except.bind])
  | ok a => exact ⟨a, rfl, by simpa [Bind.bind, Except.bind] using h⟩

/-- A successful batched upsert leaves every record of the batch present in
the destination table. -/
theorem upsert_some_mem (ncols : Nat) (keyIdx : List Nat)
    {table batch t' : List Row} (h : upsert ncols keyIdx table batch = some t') :
    ∀ r ∈ batch, r ∈ t' := by
  unfold upsert at h
  split at h
  · cases hks : keysOf keyIdx batch with
    | none => rw [hks] at h; simp at h
    | some ks =>
      rw [hks] at h
      simp only [Option.some_bind] at h
      by_cases hnd : ks.Nodup
      · rw [if_pos hnd] at h
        simp only [Option.some.injEq] at h
        subst h
        intro r hr
        obtain ⟨⟨t, ht, hkt⟩, hall⟩ :=
          settle_all keyIdx batch table (keysOf_pairwise keyIdx batch ks hks hnd) r hr
        exact (hall t ht hkt) ▸ ht
      · rw [if_neg hnd] at h
        simp at h
  · simp at h

/-- The sample sheet of §8 of the spec, with a duplicate email. -/
def dupEmailSheet : List Row :=
  [["name", "email", "vsa_uspr_access", "vsa_pe_access", "vsa_noc_access",
    "vsa_dci_access", "vsa_sc_access"],
   ["Alice", "a@x.com", "Y", "N", "N", "N", "N"],
   ["Alice2", "a@x.com", "N", "N", "N", "N", "N"]]

/-- C1, counterexample.  The claim asserts that for each of the two
destination tables the records passed to the write are duplicate-free.  For
the employee table this fails: `import_emp_data_to_postgres` has no dedup
loop, so a sheet with two rows sharing an email passes both rows to the
write. -/
theorem claim_C1_counterexample :
    ¬ List.Pairwise (fun a b => rowKey empKeyIdx a ≠ rowKey empKeyIdx b)
        (normalizeEmp dupEmailSheet) := by decide

/-- C1, amended: the dedup invariant holds for the application table — the
records passed to the application write have pairwise distinct unique-key
(name) tuples, later duplicates being discarded, never an error — while the
employee write receives the raw non-header rows unchanged, with no
deduplication at all. -/
theorem claim_C1_app_dedup_only :
    (∀ (data out : List Row), normalizeApp data = some out →
        out.Pairwise (fun a b => rowKey appKeyIdx a ≠ rowKey appKeyIdx b)) ∧
      ∀ data : List Row, normalizeEmp data = data.drop 1 := by
  refine ⟨?_, fun _ => rfl⟩
  intro data out h
  exact (dedupGo_sound appKeyIdx (data.drop 1) [] out h).2

/-- C1, witness for the amended theorem at a concrete sheet. -/
theorem claim_C1_witness :
    List.Pairwise (fun a b => rowKey appKeyIdx a ≠ rowKey appKeyIdx b)
      [["app1", "alice"], ["app2", "bob"]] :=
  claim_C1_app_dedup_only.1
    [["name", "owner"], ["app1", "alice"], ["app2", "bob"]]
    [["app1", "alice"], ["app2", "bob"]] (by decide)

/-- C2: in the application normalizer, the first occurrence of a unique-key
tuple wins — if row `A` is the first non-header row with its key and row `B`
is a later non-header row with the same key, the normalized output contains
`A` (with `A`'s non-key cell values) and does not contain `B`. -/
theorem claim_C2_first_wins (data : List Row) (p q1 q2 : List Row)
    (A B : Row) (out : List Row)
    (hsplit : data.drop 1 = p ++ A :: (q1 ++ B :: q2))
    (hfirst : ∀ x ∈ p, rowKey appKeyIdx x ≠ rowKey appKeyIdx A)
    (hkey : rowKey appKeyIdx B = rowKey appKeyIdx A)
    (hne : B ≠ A)
    (hout : normalizeApp data = some out) :
    A ∈ out ∧ B ∉ out := by
  unfold normalizeApp at hout
  rw [hsplit] at hout
  have hA : A ∈ out :=
    dedupGo_keeps_first appKeyIdx A p (q1 ++ B :: q2) [] out hout hfirst
      (by simp)
  refine ⟨hA, ?_⟩
  intro hB
  have hpw := (dedupGo_sound appKeyIdx (p ++ A :: (q1 ++ B :: q2)) [] out hout).2
  have hsym : Symmetric (fun a b => rowKey appKeyIdx a ≠ rowKey appKeyIdx b) :=
    fun a b hab e => hab e.symm
  exact hpw.forall hsym hB hA hne hkey

/-- C2, witness: the two-row duplicate scenario. -/
theorem claim_C2_witness :
    ["app1", "alice"] ∈ [["app1", "alice"]] ∧
      ["app1", "bob"] ∉ [["app1", "alice"]] :=
  claim_C2_first_wins
    [["name", "owner"], ["app1", "alice"], ["app1", "bob"]]
    [] [] [] ["app1", "alice"] ["app1", "bob"] [["app1", "alice"]]
    (by decide) (by simp) (by decide) (by decide) (by decide)

/-- C3: the header row is unconditionally excluded by both import routines —
`[header, row1]` normalizes to exactly the record built from `row1`, and in
general every record prepared for writing comes from the non-header rows. -/
theorem claim_C3_header_dropped :
    (∀ header row1 : Row, normalizeEmp [header, row1] = [row1]) ∧
      (∀ (header row1 : Row) (k : List String),
          rowKey appKeyIdx row1 = some k →
          normalizeApp [header, row1] = some [row1]) ∧
      (∀ (data : List Row) (r : Row), r ∈ normalizeEmp data → r ∈ data.drop 1) ∧
      ∀ (data out : List Row) (r : Row),
        normalizeApp data = some out → r ∈ out → r ∈ data.drop 1 := by
  refine ⟨fun _ _ => rfl, ?_, fun _ _ h => h, ?_⟩
  · intro header row1 k hk
    simp [normalizeApp, dedupGo, hk]
  · intro data out r h hr
    exact dedupGo_subset appKeyIdx (data.drop 1) [] out h r hr

/-- C3, witness: a two-row sheet. -/
theorem claim_C3_witness :
    normalizeApp [["name", "owner"], ["app1", "alice"]] =
      some [["app1", "alice"]] :=
  claim_C3_header_dropped.2.1 ["name", "owner"] ["app1", "alice"]
    ["app1"] (by decide)

/-- C4: the upsert is idempotent — applying the batched upsert twice with
the identical batch leaves the destination table in the same state as
applying it once (a failed statement leaves the prior state, and replaying
it fails identically). -/
theorem claim_C4_upsert_idempotent (ncols : Nat) (keyIdx : List Nat)
    (table batch : List Row) :
    applyUpsert ncols keyIdx (applyUpsert ncols keyIdx table batch) batch =
      applyUpsert ncols keyIdx table batch := by
  cases h : upsert ncols keyIdx table batch with
  | none =>
    unfold applyUpsert
    rw [h]
    simp only [Option.getD_none]
    rw [h]
    rfl
  | some t' =>
    unfold applyUpsert
    rw [h]
    simp only [Option.getD_some]
    rw [upsert_idem_some ncols keyIdx h]
    rfl

/-- C5: on a key conflict the upserted destination row becomes exactly the
incoming record (every non-key column overwritten, nothing outside the
schema columns touched — rows are exactly the schema-column tuples), rows
with other keys are untouched, the row count is unchanged; with no conflict
the record is inserted as a new row. -/
theorem claim_C5_conflict_update (keyIdx : List Nat) (table : List Row)
    (r : Row) :
    ((∃ t ∈ table, rowKey keyIdx t = rowKey keyIdx r) →
        r ∈ upsertOne keyIdx table r ∧
          (∀ t ∈ upsertOne keyIdx table r,
            rowKey keyIdx t = rowKey keyIdx r → t = r) ∧
          (∀ t ∈ upsertOne keyIdx table r,
            rowKey keyIdx t ≠ rowKey keyIdx r → t ∈ table) ∧
          (upsertOne keyIdx table r).length = table.length) ∧
      ((¬ ∃ t ∈ table, rowKey keyIdx t = rowKey keyIdx r) →
        upsertOne keyIdx table r = table ++ [r]) := by
  constructor
  · intro hc
    obtain ⟨⟨t0, ht0, hk0⟩, hall⟩ := settled_upsertOne_self keyIdx table r
    refine ⟨(hall t0 ht0 hk0) ▸ ht0, hall, ?_, ?_⟩
    · intro t ht hne
      unfold upsertOne at ht
      rw [if_pos hc] at ht
      obtain ⟨t', ht', himg⟩ := List.mem_map.mp ht
      by_cases h' : rowKey keyIdx t' = rowKey keyIdx r
      · rw [if_pos h'] at himg
        subst himg
        exact absurd rfl hne
      · rw [if_neg h'] at himg
        subst himg
        exact ht'
    · unfold upsertOne
      rw [if_pos hc]
      exact List.length_map _ _
  · intro hc
    unfold upsertOne
    rw [if_neg hc]

/-- C5, witness: overwriting the non-key column of an existing row. -/
theorem claim_C5_witness :
    ["app1", "new"] ∈ upsertOne appKeyIdx [["app1", "old"]] ["app1", "new"] :=
  ((claim_C5_conflict_update appKeyIdx [["app1", "old"]] ["app1", "new"]).1
    (by decide)).1

/-- C6: shape detection in `get_secrets` — a fetched secret value beginning
with the object-opening character is returned parsed as a key-value mapping,
any other value is returned as the raw string unchanged; in particular the
two scenario values of §8 of the spec. -/
theorem claim_C6_secret_shape :
    getSecretsValue "\x7b\"host\":\"db\",\"port\":\"5432\"\x7d" =
        Except.ok (SecretValue.mapping [("host", "db"), ("port", "5432")]) ∧
      getSecretsValue "plaintext-token" =
        Except.ok (SecretValue.raw "plaintext-token") ∧
      (∀ s : String, startsWithBrace s = false →
        getSecretsValue s = Except.ok (SecretValue.raw s)) ∧
      ∀ (s : String) (kvs : List (String × String)),
        startsWithBrace s = true → jsonLoadsObj s = some kvs →
        getSecretsValue s = Except.ok (SecretValue.mapping kvs) := by
  refine ⟨rfl, rfl, ?_, ?_⟩
  · intro s hs
    unfold getSecretsValue
    rw [hs]
    rfl
  · intro s kvs hs hp
    unfold getSecretsValue
    rw [hs, hp]
    rfl

/-- C6, witness: the plain-string branch at a concrete secret. -/
theorem claim_C6_witness :
    getSecretsValue "abc" = Except.ok (SecretValue.raw "abc") :=
  claim_C6_secret_shape.2.2.1 "abc" rfl

/-- C7, counterexample.  The claim requires every destination write to open
its connection with a bounded connect timeout and statement timeout; the
employee-table write passes neither keyword to `psycopg2.connect`. -/
theorem claim_C7_counterexample :
    ¬ (empConnectOptions.connect_timeout.isSome = true ∧
        empConnectOptions.statement_timeout_ms.isSome = true) := by decide

/-- C7, amended: only the application-table write opens its connection with
the bounded timeouts (connect timeout 10 s, statement timeout 30 s =
30000 ms); the employee-table write opens its connection with no explicit
timeout configuration. -/
theorem claim_C7_amended :
    appConnectOptions.connect_timeout = some 10 ∧
      appConnectOptions.statement_timeout_ms = some 30000 ∧
      empConnectOptions.connect_timeout = none ∧
      empConnectOptions.statement_timeout_ms = none := by decide

/-- C8: batch atomicity of the write path — each import call either commits
a state containing every record of its batch, or raises with the
destination table left in its prior state; in particular a refused
connection leaves the prior state. -/
theorem claim_C8_batch_atomicity :
    (∀ (connOk : Bool) (table data : List Row),
        runAppImport connOk table data = WriteResult.writeError table ∨
          ∃ batch t', normalizeApp data = some batch ∧
            upsert appColumns.length appKeyIdx table batch = some t' ∧
            runAppImport connOk table data = WriteResult.committed t' ∧
            ∀ r ∈ batch, r ∈ t') ∧
      (∀ (connOk : Bool) (table data : List Row),
        runEmpImport connOk table data = WriteResult.writeError table ∨
          ∃ t', upsert empColumns.length empKeyIdx table (normalizeEmp data) =
              some t' ∧
            runEmpImport connOk table data = WriteResult.committed t' ∧
            ∀ r ∈ normalizeEmp data, r ∈ t') ∧
      (∀ table data : List Row,
        runAppImport false table data = WriteResult.writeError table) ∧
      ∀ table data : List Row,
        runEmpImport false table data = WriteResult.writeError table := by
  refine ⟨?_, ?_, fun _ _ => rfl, fun _ _ => rfl⟩
  · intro connOk table data
    cases connOk with
    | false => exact Or.inl rfl
    | true =>
      unfold runAppImport
      simp only [if_true]
      cases hn : normalizeApp data with
      | none => exact Or.inl rfl
      | some batch =>
        dsimp only
        cases hu : upsert appColumns.length appKeyIdx table batch with
        | none => exact Or.inl rfl
        | some t' =>
          exact Or.inr ⟨batch, t', rfl, hu,
            rfl, upsert_some_mem appColumns.length appKeyIdx hu⟩
  · intro connOk table data
    cases connOk with
    | false => exact Or.inl rfl
    | true =>
      unfold runEmpImport
      simp only [if_true]
      cases hu : upsert empColumns.length empKeyIdx table (normalizeEmp data) with
      | none => exact Or.inl rfl
      | some t' =>
        exact Or.inr ⟨t', rfl, rfl,
          upsert_some_mem empColumns.length empKeyIdx hu⟩

/-- C8, witness: a refused connection leaves a concrete prior state. -/
theorem claim_C8_witness :
    runAppImport false [["app1", "old"]] [["name"], ["app1"]] =
      WriteResult.writeError [["app1", "old"]] :=
  claim_C8_batch_atomicity.2.2.1 [["app1", "old"]] [["name"], ["app1"]]

/-- The `try` body of `lambda_handler` can only succeed with the literal
message `Success`. -/
theorem handlerCore_ok {env : LambdaEnv} {m : String}
    (h : handlerCore env = Except.ok m) : m = "Success" := by
  unfold handlerCore at h
  obtain ⟨a1, -, h⟩ := except_bind_ok _ _ _ h
  obtain ⟨a2, -, h⟩ := except_bind_ok _ _ _ h
  obtain ⟨a3, -, h⟩ := except_bind_ok _ _ _ h
  obtain ⟨a4, -, h⟩ := except_bind_ok _ _ _ h
  obtain ⟨a5, -, h⟩ := except_bind_ok _ _ _ h
  obtain ⟨a6, -, h⟩ := except_bind_ok _ _ _ h
  obtain ⟨a7, -, h⟩ := except_bind_ok _ _ _ h
  obtain ⟨a8, -, h⟩ := except_bind_ok _ _ _ h
  obtain ⟨a9, -, h⟩ := except_bind_ok _ _ _ h
  obtain ⟨a10, -, h⟩ := except_bind_ok _ _ _ h
  obtain ⟨a11, -, h⟩ := except_bind_ok _ _ _ h
  obtain ⟨a12, -, h⟩ := except_bind_ok _ _ _ h
  obtain ⟨a13, -, h⟩ := except_bind_ok _ _ _ h
  split at h
  · simp at h
  · split at h
    · simp at h
    · simp only [Except.ok.injEq] at h
      exact h.symm

/-- C9: for every environment of external outcomes, `lambda_handler`
returns exactly one of the two result shapes — the 200 success response
with the literal message, or the 500 failure response carrying an error
description — and never propagates an exception. -/
theorem claim_C9_result_shape (env : LambdaEnv) :
    lambda_handler env = ⟨200, LambdaBody.message "Success"⟩ ∨
      ∃ e, lambda_handler env = ⟨500, LambdaBody.error e⟩ := by
  unfold lambda_handler
  cases h : handlerCore env with
  | ok m => exact Or.inl (by rw [handlerCore_ok h])
  | error e => exact Or.inr ⟨e, rfl⟩

/-- The assigned-paths cleanup removes both credential files and leaves
only paths that were on disk before the call. -/
theorem cleanupBoth_spec (tempPath : String) (fs0 : List String) :
    tempPath ∉ cleanupBoth tempPath ((fs0 ++ [tempPath]) ++ [sheetsTokenPath]) ∧
      sheetsTokenPath ∉
        cleanupBoth tempPath ((fs0 ++ [tempPath]) ++ [sheetsTokenPath]) ∧
      ∀ p ∈ cleanupBoth tempPath ((fs0 ++ [tempPath]) ++ [sheetsTokenPath]),
        p ∈ fs0 := by
  unfold cleanupBoth
  refine ⟨?_, ?_, ?_⟩
  · intro hmem
    have h2 := (List.mem_filter.mp (List.mem_filter.mp hmem).1).2
    simp at h2
  · intro hmem
    have h1 := (List.mem_filter.mp hmem).2
    simp at h1
  · intro p hp
    have h1 := List.mem_filter.mp hp
    have h2 := List.mem_filter.mp h1.1
    have hne2 : p ≠ sheetsTokenPath := by simpa using h1.2
    have hne1 : p ≠ tempPath := by simpa using h2.2
    have hmem := h2.1
    simp only [List.mem_append, List.mem_singleton] at hmem
    rcases hmem with (h | h) | h
    · exact h
    · exact absurd h hne1
    · exact absurd h hne2

/-- C10, counterexample.  The claim asserts every credential artifact the
sheet read materialized is removed on every exit path.  On the exit path
where the client-secret dump raises, the temp file already created by
`NamedTemporaryFile(delete=False)` is still on disk after the call:
`temp_file_path` was never assigned, so the guarded `finally` removal is
skipped. -/
theorem claim_C10_counterexample :
    "/tmp/tmpclientsecret.json" ∈
      (read_google_sheet_data_fs "/tmp/tmpclientsecret.json"
        SheetOutcome.dumpCredsFail []).2 := by
  simp [read_google_sheet_data_fs]

/-- C10, amended: on every exit path reached after the client-secret dump
completes (so `temp_file_path` is assigned) — token-file write failure,
service failure, or success — both materialized credential artifacts are
removed before the operation finishes and no path absent before the call
remains; on the one exit path where the client-secret dump itself raises,
the just-created temp file is left on disk. -/
theorem claim_C10_cleanup_after_dump :
    (∀ (tempPath : String) (outcome : SheetOutcome) (fs0 : List String),
        outcome ≠ SheetOutcome.dumpCredsFail →
        tempPath ∉ (read_google_sheet_data_fs tempPath outcome fs0).2 ∧
          sheetsTokenPath ∉ (read_google_sheet_data_fs tempPath outcome fs0).2 ∧
          ∀ p ∈ (read_google_sheet_data_fs tempPath outcome fs0).2, p ∈ fs0) ∧
      ∀ (tempPath : String) (fs0 : List String),
        tempPath ∈
          (read_google_sheet_data_fs tempPath SheetOutcome.dumpCredsFail fs0).2 := by
  constructor
  · intro tempPath outcome fs0 h
    cases outcome with
    | dumpCredsFail => exact absurd rfl h
    | tokenWriteFail => exact cleanupBoth_spec tempPath fs0
    | serviceFail msg => exact cleanupBoth_spec tempPath fs0
    | success d => exact cleanupBoth_spec tempPath fs0
  · intro tempPath fs0
    simp [read_google_sheet_data_fs]

/-- C10, witness for the amended theorem: a successful read leaves no temp
file behind. -/
theorem claim_C10_witness :
    "/tmp/tmpx.json" ∉
      (read_google_sheet_data_fs "/tmp/tmpx.json" (SheetOutcome.success [])
        []).2 :=
  (claim_C10_cleanup_after_dump.1 "/tmp/tmpx.json" (SheetOutcome.success [])
    [] (by decide)).1



